import Mathlib

/-!
Verification development for the `pfs` portable-filesystem library.

The Rust sources are shallowly embedded here:
* host paths are modelled as their lists of components (`List String`),
  with the Unix separator `/`;
* `usize` arithmetic wraps modulo `2 ^ 64` (release-build semantics);
* string lowercasing is modelled per `Char` (ASCII case folding), which
  agrees with the library's use of lowercase ASCII extensions;
* fallible operations return `Except Error`;
* filesystem effects (existence checks, writes, mtime updates) are
  resolved by an explicit environment record.
-/

namespace Pfs

/-- `FilterLevel` from `src/filter.rs`: the three-valued filter decision. -/
inductive FilterLevel where
  | deny
  | traverse
  | allow
deriving DecidableEq

/-- `FileStat` from `src/file.rs`: size, RFC-3339 mtime string, directory
flag and optional content digest. Equality is field-wise, as derived in
the source. -/
structure FileStat where
  size : Nat
  mtime : String
  isDirectory : Bool
  sha256 : Option String
deriving DecidableEq

/-- Portable `Path` from `src/path.rs`: a vector of component strings. -/
structure Path where
  components : List String
deriving DecidableEq

/-- `FileInfo` from `src/file.rs`: a portable path plus its metadata. -/
structure FileInfo where
  path : Path
  stats : FileStat
deriving DecidableEq

/-- `Error` from `src/errors.rs`. -/
inductive Error where
  | read (what how : String)
  | invalidArgument (msg : String)
  | parse (what how : String)
  | fileExists (path : String)
  | create (what how : String)
  | write (what how : String)
  | delete (what how : String)
  | sync (what how : String)
  | invalidPath (what : String)
deriving DecidableEq

/-- `std::path::Path::starts_with` on component lists: `root` is a
component-wise prefix of `path`. -/
def startsWithComp : (path root : List String) → Bool
  | _, [] => true
  | [], _ :: _ => false
  | p :: ps, r :: rs => p == r && startsWithComp ps rs

/-- Split a character list at its last `'.'`, returning the pieces before
and after it. Used to model `std::path::Path::extension` and `file_stem`. -/
def splitLastDot : List Char → Option (List Char × List Char)
  | [] => none
  | c :: rest =>
    match splitLastDot rest with
    | some (s, e) => some (c :: s, e)
    | none => if c = '.' then some ([], rest) else none

/-- Rust `Path::extension` restricted to a single normal file name: the part
after the last dot, unless there is no dot or the only dot starts the name. -/
def extOfName (f : String) : Option String :=
  match splitLastDot f.data with
  | none => none
  | some (s, e) => if s.isEmpty then none else some (String.mk e)

/-- Rust `Path::file_stem` restricted to a single normal file name. -/
def stemOfName (f : String) : String :=
  match splitLastDot f.data with
  | none => f
  | some (s, _) => if s.isEmpty then f else String.mk s

/-- `Path::extension` of a component-list path: the extension of its last
component (`file_name`). -/
def extOfPath (p : List String) : Option String :=
  match p.getLast? with
  | none => none
  | some f => extOfName f

/-- `FilterSet` from `src/filter.rs`. The two `HashSet`s are modelled as
lists queried by membership. -/
structure FilterSet where
  allowedRoots : List (List String)
  deniedRoots : List (List String)
  allowedExtensions : List String
  allowedFilenames : List String
deriving DecidableEq

/-- `FilterSet::new` / `Default`: all four collections empty. -/
def FilterSet.new : FilterSet := ⟨[], [], [], []⟩

/-- `FilterSet::allow_path`: push a root onto the allow list. -/
def FilterSet.allowPath (fs : FilterSet) (p : List String) : FilterSet :=
  { fs with allowedRoots := fs.allowedRoots ++ [p] }

/-- `FilterSet::deny_path`: push a root onto the deny list. -/
def FilterSet.denyPath (fs : FilterSet) (p : List String) : FilterSet :=
  { fs with deniedRoots := fs.deniedRoots ++ [p] }

/-- `FilterSet::allow_extension`: insert the lowercased extension. -/
def FilterSet.allowExtension (fs : FilterSet) (ext : String) : FilterSet :=
  { fs with allowedExtensions := ext.toLower :: fs.allowedExtensions }

/-- `FilterSet::allow_filename`: insert the exact file name. -/
def FilterSet.allowFilename (fs : FilterSet) (name : String) : FilterSet :=
  { fs with allowedFilenames := name :: fs.allowedFilenames }

/-- `FilterSet::check_extension`: the lowercased extension is in the set. -/
def FilterSet.checkExtension (fs : FilterSet) (ext : String) : Bool :=
  fs.allowedExtensions.contains ext.toLower

/-- `FilterSet::check_filename`: the exact file name is in the set. -/
def FilterSet.checkFilename (fs : FilterSet) (p : List String) : Bool :=
  match p.getLast? with
  | some n => fs.allowedFilenames.contains n
  | none => false

/-- `FilterSet::matches` from `src/filter.rs`, with the `Result` return
type of the source: every return site of the source wraps its level in
`Ok`, which the embedding renders as `Except.ok`. -/
def FilterSet.matchesR (fs : FilterSet) (path : List String) (isDir : Bool) :
    Except Error FilterLevel :=
  if fs.deniedRoots.any (fun d => startsWithComp path d) then .ok .deny
  else if !fs.allowedRoots.isEmpty &&
      !(fs.allowedRoots.any (fun r => startsWithComp path r)) then .ok .deny
  else if isDir && fs.allowedExtensions.isEmpty && fs.allowedFilenames.isEmpty then
    .ok .allow
  else if isDir then .ok .traverse
  else if !fs.allowedExtensions.isEmpty &&
      !((extOfPath path).any (fun e => fs.checkExtension e)) then .ok .deny
  else if !fs.allowedFilenames.isEmpty && !(fs.checkFilename path) then .ok .deny
  else .ok .allow

/-- The `FilterLevel` value of `FilterSet::matches`, i.e. the value the
walker obtains by `unwrap()`. -/
def FilterSet.matchesLevel (fs : FilterSet) (path : List String) (isDir : Bool) :
    FilterLevel :=
  match fs.matchesR path isDir with
  | .ok l => l
  | .error _ => .deny

/-- The ordered filter algorithm exactly as the specification words it
(spec §4.2); compared against the source's `matchesR`/`matchesLevel`. -/
def matchesSpec (fs : FilterSet) (path : List String) (isDir : Bool) :
    FilterLevel :=
  if ∃ d ∈ fs.deniedRoots, d <+: path then .deny
  else if fs.allowedRoots ≠ [] ∧ ∀ a ∈ fs.allowedRoots, ¬ (a <+: path) then .deny
  else if isDir then
    (if fs.allowedExtensions = [] ∧ fs.allowedFilenames = [] then .allow
     else .traverse)
  else if fs.allowedExtensions ≠ [] ∧
      !((extOfPath path).any (fun e => fs.allowedExtensions.contains e.toLower)) then
    .deny
  else if fs.allowedFilenames ≠ [] ∧
      !((path.getLast?).any (fun n => fs.allowedFilenames.contains n)) then .deny
  else .allow

/-- `s.contains(c)` on a Rust string, modelled on the character list. -/
def charIn (c : Char) (s : String) : Bool := s.data.contains c

/-- The component invariant the specification states for portable paths. -/
def validComponent (c : String) : Bool :=
  !(c == "." || c == ".." || c.isEmpty || charIn '/' c || charIn '\\' c)

/-- `Path::empty` from `src/path.rs`. -/
def Path.empty : Path := ⟨[]⟩

/-- `deserialize_components` from `src/path.rs`: the serde hook rejects a
component list iff some element is `".."` or `"."`. -/
def deserializeComponents (components : List String) : Except String (List String) :=
  if components.any (fun c => c == ".." || c == ".") then
    .error "Path component cannot contain '..'"
  else
    .ok components

/-- Deserializing a `Path`: decode the `components` field, then run
`deserialize_components`. -/
def deserializePath (components : List String) : Except String Path :=
  (deserializeComponents components).map Path.mk

/-- The component-validating loop of `impl TryFrom<&[T]> for Path`
(`from_components`). -/
def validateComponents : List String → Except Error (List String)
  | [] => .ok []
  | s :: rest =>
    if charIn '/' s || charIn '\\' s then
      .error (.invalidArgument ("Invalid path component: " ++ s))
    else if s == "." || s == ".." || s.isEmpty then
      .error (.invalidArgument ("Invalid path component: " ++ s))
    else
      (validateComponents rest).map (fun c => s :: c)

/-- `Path::try_from(&[T])` (`from_components`). -/
def tryFromComponents (components : List String) : Except Error Path :=
  (validateComponents components).map Path.mk

/-- Split a character list on `'/'`, keeping empty groups, as the Unix
path parser does before discarding them. -/
def splitOnSlash : List Char → List (List Char)
  | [] => [[]]
  | c :: rest =>
    if c = '/' then [] :: splitOnSlash rest
    else
      match splitOnSlash rest with
      | [] => [[c]]
      | g :: gs => (c :: g) :: gs

/-- Whether a Unix path string begins with a kept `CurDir` component:
`"."` alone or `"./…"`. -/
def curDirLead : List Char → Bool
  | ['.'] => true
  | '.' :: c :: _ => c = '/'
  | _ => false

/-- `std::path::Path::components()` on Unix, encoded as strings: `"/"`
stands for `RootDir`, `"."` for a kept leading `CurDir`; empty and
interior `"."` groups are normalized away, `".."` is kept. -/
def rustComponents (s : String) : List String :=
  let parts := ((splitOnSlash s.data).map String.mk).filter
    (fun p => p ≠ "" && p ≠ ".")
  let root := if s.data.head? = some '/' then ["/"] else []
  let cur := if s.data.head? ≠ some '/' ∧ curDirLead s.data then ["."] else []
  root ++ cur ++ parts

/-- `impl TryFrom<&StdPath> for Path` (`from_host_path`): reject `"."` and
`".."` as whole inputs, then keep every component except `RootDir`. -/
def fromHostPath (s : String) : Except Error Path :=
  if s = "." ∨ s = ".." then
    .error (.invalidArgument "Path cannot contain '.' or '..' components")
  else
    .ok ⟨(rustComponents s).filter (fun c => c ≠ "/")⟩

/-- `CacheStats` from `src/cache.rs`. -/
structure CacheStats where
  hits : Nat
  misses : Nat
deriving DecidableEq

/-- `FsCache` from `src/cache.rs`: the bounded LRU cache. `entries` is
kept most-recently-used first; `cap` is the fixed positive capacity. -/
structure FsCache where
  entries : List (Path × FileStat)
  cap : Nat
  stats : CacheStats
deriving DecidableEq

/-- `FsCache::new`. -/
def FsCache.new (cap : Nat) : FsCache := ⟨[], cap, ⟨0, 0⟩⟩

/-- `Cache::get` on the LRU variant: a hit returns the record and
refreshes recency; the hit/miss counters advance. -/
def FsCache.get (c : FsCache) (k : Path) : Option FileStat × FsCache :=
  match c.entries.find? (fun e => e.1 == k) with
  | some (_, v) =>
    (some v,
      { c with
        entries := (k, v) :: c.entries.eraseP (fun e => e.1 == k)
        stats := { c.stats with hits := c.stats.hits + 1 } })
  | none =>
    (none, { c with stats := { c.stats with misses := c.stats.misses + 1 } })

/-- `Cache::put` on the LRU variant: insert or replace at maximal
recency, evicting the least-recently-used entry on overflow. -/
def FsCache.put (c : FsCache) (k : Path) (v : FileStat) : FsCache :=
  { c with entries :=
      if ((k, v) :: c.entries.eraseP (fun e => e.1 == k)).length > c.cap then
        ((k, v) :: c.entries.eraseP (fun e => e.1 == k)).dropLast
      else
        (k, v) :: c.entries.eraseP (fun e => e.1 == k) }

/-- `Cache::pop` on the LRU variant. -/
def FsCache.pop (c : FsCache) (k : Path) : Option FileStat × FsCache :=
  match c.entries.find? (fun e => e.1 == k) with
  | some (_, v) => (some v, { c with entries := c.entries.eraseP (fun e => e.1 == k) })
  | none => (none, c)

/-- Cache keys are pairwise distinct, as in the `lru` crate's map. -/
def wfCache (c : FsCache) : Prop := (c.entries.map Prod.fst).Nodup

/-- `Path::parent` from `src/path.rs`. -/
def Path.parent (p : Path) : Option Path :=
  match p.components with
  | [] => none
  | _ => some ⟨p.components.dropLast⟩

/-- Outcomes of the filesystem effects `PortableFs::write` performs, in
program order: existence probe, parent creation, file write, mtime
parse, mtime update (with its blocking-task join). -/
structure WriteEnv where
  pathExists : Bool
  createOk : Bool
  writeOk : Bool
  parseOk : Bool
  setMtimeOk : Bool
deriving DecidableEq

/-- `PortableFs::write` from `src/portable_fs.rs`: the early `FileExists`
check, parent creation, data write, mtime parse and mtime update in
source order; the cache is touched only after every step succeeded. -/
def writeFs (env : WriteEnv) (c : FsCache) (p : Path) (data : List Nat)
    (overwrite : Bool) (stats : FileStat) : Except Error Unit × FsCache :=
  if env.pathExists && !overwrite then
    (.error (.fileExists "full_path"), c)
  else if (p.parent).isSome && !env.createOk then
    (.error (.create "parent" "Failed to create directories"), c)
  else if !env.writeOk then
    (.error (.write "full_path" (toString data.length)), c)
  else if !env.parseOk then
    (.error (.parse "parse system time" stats.mtime), c)
  else if !env.setMtimeOk then
    (.error (.write "full_path" "set_modified"), c)
  else
    (.ok (), c.put p stats)

/-- Outcomes of the filesystem effects `PortableFs::delete_file`
performs: existence probe, directory probe, removal. -/
structure DeleteEnv where
  pathExists : Bool
  isDir : Bool
  removeOk : Bool
deriving DecidableEq

/-- `PortableFs::delete_file` from `src/portable_fs.rs`: argument checks,
removal, then `pop` of the cache entry only on success. -/
def deleteFileFs (env : DeleteEnv) (c : FsCache) (p : Path) :
    Except Error Unit × FsCache :=
  if !env.pathExists then
    (.error (.invalidArgument "File does not exist"), c)
  else if env.isDir then
    (.error (.invalidArgument "Path is a directory"), c)
  else if !env.removeOk then
    (.error (.delete "full_path" "io"), c)
  else
    (.ok (), (c.pop p).2)

/-- The characters `sanitize_filename` replaces (`INVALID_CHARS`). -/
def invalidChars : List Char := ['<', '>', ':', '"', '/', '\\', '|', '?', '*']

/-- Rust `char::is_control`: the Unicode `Cc` category. -/
def isControlChar (c : Char) : Bool :=
  c.toNat < 32 || (127 ≤ c.toNat && c.toNat ≤ 159)

/-- A character `sanitize_filename` treats as invalid. -/
def isInvalidChar (c : Char) : Bool := invalidChars.contains c || isControlChar c

/-- The replace-and-coalesce loop of `sanitize_filename`: invalid
characters become the replacement, runs of replacements collapse. -/
def sanitizeScan (repl : Char) : List Char → Bool → List Char
  | [], _ => []
  | c :: rest, lastRepl =>
    if isInvalidChar c then
      if lastRepl then sanitizeScan repl rest true
      else repl :: sanitizeScan repl rest true
    else c :: sanitizeScan repl rest false

/-- `trim_matches(' ' or '.')`: strip spaces and dots from both ends. -/
def trimChars (cs : List Char) : List Char :=
  ((cs.dropWhile (fun c => c = ' ' || c = '.')).reverse.dropWhile
    (fun c => c = ' ' || c = '.')).reverse

/-- Rust `Path::extension` of a single normal file-name component. -/
def extOfChars (cs : List Char) : Option (List Char) :=
  match splitLastDot cs with
  | none => none
  | some (s, e) => if s = [] then none else some e

/-- Rust `Path::file_stem` of a single normal file-name component. -/
def stemOfChars (cs : List Char) : List Char :=
  match splitLastDot cs with
  | none => cs
  | some (s, _) => if s = [] then cs else s

/-- `WINDOWS_RESERVED_NAMES`, ASCII-folded for `eq_ignore_ascii_case`. -/
def reservedNames : List String :=
  ["con", "prn", "aux", "nul", "com1", "com2", "com3", "com4", "com5",
   "com6", "com7", "com8", "com9", "lpt1", "lpt2", "lpt3", "lpt4", "lpt5",
   "lpt6", "lpt7", "lpt8", "lpt9"]

/-- The reserved-name test on the file stem (`eq_ignore_ascii_case`). -/
def isReservedStem (cs : List Char) : Bool :=
  reservedNames.contains (String.mk (cs.map Char.toLower))

/-- Rust `str::len`: the UTF-8 byte length of a character list. -/
def utf8Len (cs : List Char) : Nat := (cs.map Char.utf8Size).sum

/-- `255 - ext_len - 1` in `usize` arithmetic (wraps, release builds). -/
def wrapSub255 (extLen : Nat) : Nat :=
  (((255 : Int) - extLen - 1).emod (2 ^ 64)).toNat

/-- `sanitize_filename` after replacement and trimming. -/
def sanitizeTrimmed (s : String) (repl : Char) : List Char :=
  trimChars (sanitizeScan repl s.data false)

/-- `sanitize_filename` after the reserved-name wrap. -/
def sanitizeWrapped (s : String) (repl : Char) : List Char :=
  if isReservedStem (stemOfChars (sanitizeTrimmed s repl)) then
    repl :: sanitizeTrimmed s repl ++ [repl]
  else
    sanitizeTrimmed s repl

/-- `sanitize_filename` from `src/utils.rs`: replace and coalesce invalid
characters, trim spaces and dots, return `"unnamed" + replacement` when
empty, wrap Windows-reserved stems, and truncate over-long names — the
length test counts UTF-8 bytes but the truncation takes characters, as in
the source. -/
def sanitizeFilename (s : String) (repl : Char) : String :=
  if sanitizeTrimmed s repl = [] then
    String.mk ("unnamed".data ++ [repl])
  else if utf8Len (sanitizeWrapped s repl) > 255 then
    match extOfChars (sanitizeWrapped s repl) with
    | some ext =>
      String.mk ((stemOfChars (sanitizeWrapped s repl)).take
        (wrapSub255 (utf8Len ext)) ++ '.' :: ext)
    | none => String.mk ((sanitizeWrapped s repl).take 255)
  else
    String.mk (sanitizeWrapped s repl)

/-- An on-disk tree entry as the walker observes it: the name the OS
returns, the metadata `lookup_or_load` produces for it, and — when the
metadata marks it a directory — the entries listed under it. For an
unchanged tree the cache-transparent `lookup_or_load` always reports this
same metadata. -/
inductive Entry where
  | mk (name : String) (stat : FileStat) (children : List Entry)

/-- The entry's OS name. -/
def Entry.name : Entry → String
  | .mk n _ _ => n

/-- The walker's parameters from `DirWalker::create`: chunk size,
optional maximum depth, the layer's filter set, and the baseline map
(`lookup`) keyed by host-style relative path. The map is the insertion
sequence of a `HashMap`; later inserts shadow earlier ones. -/
structure WalkerCfg where
  chunkSize : Nat
  maxDepth : Option Nat
  filter : FilterSet
  lookup : List (List String × FileStat)

/-- `HashMap::get` over the insertion sequence: the latest binding wins. -/
def mapFind : List (List String × FileStat) → List String → Option FileStat
  | [], _ => none
  | (k, v) :: rest, key =>
    match mapFind rest key with
    | some v' => some v'
    | none => if k == key then some v else none

/-- The walker's mutable state: the chunk being filled and the chunks
already sent on the channel, in order. -/
structure WalkSt where
  buffer : List FileInfo
  sent : List (List FileInfo)
deriving DecidableEq

/-- `DirWalker::write_chunks`: send the buffer as one chunk. -/
def writeChunksM (st : WalkSt) : WalkSt := ⟨[], st.sent ++ [st.buffer]⟩

/-- `DirWalker::push_and_send`: append the item; send the chunk when it
reaches `chunk_size`. -/
def pushAndSend (cfg : WalkerCfg) (st : WalkSt) (item : FileInfo) : WalkSt :=
  if (st.buffer ++ [item]).length = cfg.chunkSize then
    ⟨[], st.sent ++ [st.buffer ++ [item]]⟩
  else
    ⟨st.buffer ++ [item], st.sent⟩

/-- The `Allow` branch of the entry loop: compare against the baseline
and push unless the baseline already holds a field-wise equal record. -/
def procAllow (cfg : WalkerCfg) (st : WalkSt) (rel : List String)
    (stat : FileStat) (lvl : FilterLevel) : WalkSt :=
  if lvl = .allow then
    if mapFind cfg.lookup rel = some stat then st
    else pushAndSend cfg st ⟨⟨rel⟩, stat⟩
  else st

/-- The item the `Allow` branch pushes, if any. -/
def emitHead (cfg : WalkerCfg) (rel : List String) (stat : FileStat)
    (lvl : FilterLevel) : List FileInfo :=
  if lvl = .allow then
    if mapFind cfg.lookup rel = some stat then [] else [⟨⟨rel⟩, stat⟩]
  else []

/-- The flush at the end of a `walk_recursive` call: send the partial
chunk when it is non-empty. -/
def flushEnd (st : WalkSt) : WalkSt :=
  if st.buffer = [] then st else writeChunksM st

mutual
/-- One iteration of the entry loop of `DirWalker::walk_recursive` at an
entry of the directory with relative path `dirRel`, visited at `depth`:
filter, baseline comparison, emission, and — for directories — the
recursive call `walk_recursive(entry, depth + 1)` whose body carries the
depth guard, the entry loop and the end-of-loop flush of a non-empty
partial chunk. -/
def walkE (cfg : WalkerCfg) (dirRel : List String) (depth : Nat) (st : WalkSt) :
    Entry → WalkSt
  | .mk name stat children =>
    if cfg.filter.matchesLevel (dirRel ++ [name]) stat.isDirectory = .deny then st
    else if stat.isDirectory then
      if depth + 1 > cfg.maxDepth.getD (2 ^ 64 - 1) then
        procAllow cfg st (dirRel ++ [name]) stat
          (cfg.filter.matchesLevel (dirRel ++ [name]) stat.isDirectory)
      else
        flushEnd (walkL cfg (dirRel ++ [name]) (depth + 1)
          (procAllow cfg st (dirRel ++ [name]) stat
            (cfg.filter.matchesLevel (dirRel ++ [name]) stat.isDirectory))
          children)
    else
      procAllow cfg st (dirRel ++ [name]) stat
        (cfg.filter.matchesLevel (dirRel ++ [name]) stat.isDirectory)

/-- The entry loop of `walk_recursive` over the listed entries in OS
order. -/
def walkL (cfg : WalkerCfg) (dirRel : List String) (depth : Nat) (st : WalkSt) :
    List Entry → WalkSt
  | [] => st
  | e :: rest => walkL cfg dirRel depth (walkE cfg dirRel depth st e) rest
end

/-- `DirWalker::walk_dir_stream`: the top-level `walk_recursive` call at
depth 0 on the listing of the walk root (whose own relative path is
`r0`), including its final flush. -/
def walkTop (cfg : WalkerCfg) (r0 : List String) (entries : List Entry) : WalkSt :=
  if 0 > cfg.maxDepth.getD (2 ^ 64 - 1) then ⟨[], []⟩
  else flushEnd (walkL cfg r0 0 ⟨[], []⟩ entries)

mutual
/-- The sequence of items `walk_recursive` pushes for one entry,
independent of chunk boundaries. -/
def emitE (cfg : WalkerCfg) (dirRel : List String) (depth : Nat) :
    Entry → List FileInfo
  | .mk name stat children =>
    if cfg.filter.matchesLevel (dirRel ++ [name]) stat.isDirectory = .deny then []
    else if stat.isDirectory then
      if depth + 1 > cfg.maxDepth.getD (2 ^ 64 - 1) then
        emitHead cfg (dirRel ++ [name]) stat
          (cfg.filter.matchesLevel (dirRel ++ [name]) stat.isDirectory)
      else
        emitHead cfg (dirRel ++ [name]) stat
          (cfg.filter.matchesLevel (dirRel ++ [name]) stat.isDirectory) ++
        emitL cfg (dirRel ++ [name]) (depth + 1) children
    else
      emitHead cfg (dirRel ++ [name]) stat
        (cfg.filter.matchesLevel (dirRel ++ [name]) stat.isDirectory)

/-- The items pushed across a listed sequence of entries. -/
def emitL (cfg : WalkerCfg) (dirRel : List String) (depth : Nat) :
    List Entry → List FileInfo
  | [] => []
  | e :: rest => emitE cfg dirRel depth e ++ emitL cfg dirRel depth rest
end

mutual
/-- The relative paths of all entries in a subtree, in walk order. -/
def pathsE (dirRel : List String) : Entry → List (List String)
  | .mk n _ cs => (dirRel ++ [n]) :: pathsL (dirRel ++ [n]) cs

/-- The relative paths of all entries under a listing. -/
def pathsL (dirRel : List String) : List Entry → List (List String)
  | [] => []
  | e :: rest => pathsE dirRel e ++ pathsL dirRel rest
end

mutual
/-- A real directory tree: names are unique within each directory. -/
def wfE : Entry → Bool
  | .mk _ _ cs => wfL cs

/-- Well-formedness of a directory listing. -/
def wfL : List Entry → Bool
  | [] => true
  | e :: rest => wfE e && wfL rest && !((rest.map Entry.name).contains e.name)
end

/-- Everything a walker run hands to its channel consumer, in order: the
sent chunks flattened, followed by the not-yet-flushed buffer. -/
def totalOut (st : WalkSt) : List FileInfo := st.sent.flatten ++ st.buffer

/-- `PortableFs::exchange_deltas`: build the baseline map from the
declared deltas keyed by `as_relative_path` (the portable components) and
run a depth-unbounded walker inline. `r0` is the walk root's path
relative to the strip prefix (the base-dir's basename when it has a
parent, empty otherwise). -/
def buildLookup (deltas : List FileInfo) : List (List String × FileStat) :=
  deltas.map (fun i => (i.path.components, i.stats))

/-- The walker state `exchange_deltas` produces on its channel. -/
def exchangeDeltas (fset : FilterSet) (chunkSize : Nat) (r0 : List String)
    (tree : List Entry) (deltas : List FileInfo) : WalkSt :=
  walkTop ⟨chunkSize, none, fset, buildLookup deltas⟩ r0 tree

/-- The chunk-shape invariant of a walker state: every sent chunk is
non-empty and no longer than `chunk_size`, and the buffer is strictly
shorter than `chunk_size`. -/
def chunksOk (cfg : WalkerCfg) (st : WalkSt) : Prop :=
  (∀ c ∈ st.sent, c ≠ [] ∧ c.length ≤ cfg.chunkSize) ∧
  st.buffer.length < cfg.chunkSize

/-- Metadata of the counterexample directory `d`. -/
def cexStatD : FileStat := ⟨0, "2018-01-26T18:30:09.453Z", true, some ""⟩

/-- Metadata of the counterexample files. -/
def cexStatF : FileStat := ⟨13, "2018-01-26T18:30:09.453Z", false, some "ab"⟩

/-- Counterexample tree: a directory `d` containing file `b`, then a file
`a`, listed in that order. -/
def cexTree : List Entry :=
  [Entry.mk "d" cexStatD [Entry.mk "b" cexStatF []], Entry.mk "a" cexStatF []]

@[simp]
theorem startsWithComp_iff (p r : List String) :
    startsWithComp p r = true ↔ r <+: p := by
  induction r generalizing p with
  | nil => simp [startsWithComp]
  | cons x xs ih =>
    cases p with
    | nil => simp [startsWithComp]
    | cons y ys =>
      simp only [startsWithComp, Bool.and_eq_true, beq_iff_eq, ih,
        List.cons_prefix_cons]
      constructor
      · rintro ⟨h1, h2⟩; exact ⟨h1.symm, h2⟩
      · rintro ⟨h1, h2⟩; exact ⟨h1.symm, h2⟩

/-- C10: `FilterSet::matches` reaches `Ok` on every control path; the level
the walker unwraps is `matchesLevel`. -/
theorem matchesR_total (fs : FilterSet) (p : List String) (d : Bool) :
    fs.matchesR p d = Except.ok (fs.matchesLevel p d) := by
  unfold FilterSet.matchesLevel
  cases h : fs.matchesR p d with
  | ok l => rfl
  | error e =>
    exfalso
    unfold FilterSet.matchesR at h
    split_ifs at h

@[simp]
theorem checkFilename_eq_any (fs : FilterSet) (p : List String) :
    fs.checkFilename p = (p.getLast?).any (fun n => fs.allowedFilenames.contains n) := by
  cases h : p.getLast? <;> simp [FilterSet.checkFilename, h, Option.any]

/-- C5: the source's `matches` decision equals the ordered algorithm of the
specification, for every filter state, path and directory flag. -/
theorem matchesLevel_eq_matchesSpec (fs : FilterSet) (p : List String) (d : Bool) :
    fs.matchesLevel p d = matchesSpec fs p d := by
  unfold FilterSet.matchesLevel FilterSet.matchesR matchesSpec
  split_ifs <;>
    simp_all [List.any_eq_true, List.isEmpty_iff, FilterSet.checkExtension]

/-- C7 counterexample: starting from the empty filter set (whose allowed
roots are empty), `["a"]` is decided `Allow`, yet after `allow_path(["b"])`
the same path is decided `Deny` — adding an allow root can turn `Allow`
into `Deny`. -/
theorem allow_path_turns_allow_into_deny :
    FilterSet.new.allowedRoots = [] ∧
    FilterSet.new.matchesLevel ["a"] false = .allow ∧
    (FilterSet.new.allowPath ["b"]).matchesLevel ["a"] false = .deny := by
  refine ⟨rfl, ?_, ?_⟩ <;> rfl

/-- C7 (amended): adding a deny root never turns `Deny` into any other
decision; and from a state with no allowed roots, adding an allow root
that is a component-wise prefix of the path keeps an `Allow` decision. -/
theorem filter_monotone :
    (∀ (fs : FilterSet) (p : List String) (d : Bool) (r : List String),
      fs.matchesLevel p d = .deny → (fs.denyPath r).matchesLevel p d = .deny) ∧
    (∀ (fs : FilterSet) (p : List String) (d : Bool) (r : List String),
      fs.allowedRoots = [] → fs.matchesLevel p d = .allow → r <+: p →
      (fs.allowPath r).matchesLevel p d = .allow) := by
  constructor
  · intro fs p d r h
    unfold FilterSet.matchesLevel FilterSet.matchesR at h ⊢
    by_cases hd : (fs.deniedRoots.any fun x => startsWithComp p x) = true
    · simp [FilterSet.denyPath, List.any_append, hd]
    · by_cases hr : startsWithComp p r = true
      · simp [FilterSet.denyPath, List.any_append, hr]
      · simp only [Bool.not_eq_true] at hd hr
        simp only [FilterSet.denyPath, List.any_append, List.any_cons,
          List.any_nil, hd, hr, Bool.or_false, Bool.or_self] at h ⊢
        exact h
  · intro fs p d r hA h hr
    have hb : startsWithComp p r = true := (startsWithComp_iff p r).mpr hr
    unfold FilterSet.matchesLevel FilterSet.matchesR at h ⊢
    by_cases hd : (fs.deniedRoots.any fun x => startsWithComp p x) = true
    · simp [hd] at h
    · simp only [Bool.not_eq_true] at hd
      simp only [FilterSet.allowPath, hA, List.nil_append, hd, hb,
        List.isEmpty_nil, List.any_cons, List.any_nil, Bool.not_true,
        Bool.false_and, Bool.or_false, Bool.not_false, Bool.true_and,
        List.isEmpty_cons, if_false, Bool.false_eq_true, if_neg] at h ⊢
      simp_all [FilterSet.checkExtension]

/-- Witness for `filter_monotone` at concrete inputs. -/
theorem filter_monotone_witness :
    ((FilterSet.new.denyPath ["x"]).denyPath ["y"]).matchesLevel ["x"] false = .deny ∧
    (FilterSet.new.allowPath ["a"]).matchesLevel ["a", "b"] false = .allow := by
  constructor
  · exact filter_monotone.1 (FilterSet.new.denyPath ["x"]) ["x"] false ["y"] (by decide)
  · exact filter_monotone.2 FilterSet.new ["a", "b"] false ["a"] (by decide)
      (by decide) (by decide)

/-- C2 counterexample: the component `"a/b"` contains `'/'`, so the claim
says deserialization must reject it; the source's hook accepts it. -/
theorem deserialize_accepts_slash :
    deserializePath ["a/b"] = Except.ok ⟨["a/b"]⟩ ∧ charIn '/' "a/b" = true := by
  exact ⟨rfl, rfl⟩

/-- C2 (amended): deserializing a `Path` rejects a component list with a
parse error exactly when some component is `"."` or `".."`; empty
components and components containing separators are accepted, and success
yields exactly the given components. -/
theorem deserialize_validates_dots_only (cs : List String) :
    ((∃ c ∈ cs, c = "." ∨ c = "..") →
      deserializePath cs = Except.error "Path component cannot contain '..'") ∧
    ((∀ c ∈ cs, c ≠ "." ∧ c ≠ "..") → deserializePath cs = Except.ok ⟨cs⟩) := by
  constructor
  · rintro ⟨c, hc, hor⟩
    have hA : cs.any (fun c => c == ".." || c == ".") = true :=
      List.any_eq_true.mpr ⟨c, hc, by rcases hor with h | h <;> simp [h]⟩
    simp [deserializePath, deserializeComponents, hA, Except.map]
  · intro h
    cases hA : cs.any (fun c => c == ".." || c == ".") with
    | true =>
      obtain ⟨c, hc, hor⟩ := List.any_eq_true.mp hA
      rcases (h c hc) with ⟨h1, h2⟩
      simp [h1, h2] at hor
    | false =>
      simp [deserializePath, deserializeComponents, hA, Except.map]

/-- Witness for `deserialize_validates_dots_only` at concrete inputs. -/
theorem deserialize_validates_dots_only_witness :
    deserializePath ["..", "x"] = Except.error "Path component cannot contain '..'" ∧
    deserializePath ["a"] = Except.ok ⟨["a"]⟩ := by
  constructor
  · exact (deserialize_validates_dots_only ["..", "x"]).1
      ⟨"..", by simp, Or.inr rfl⟩
  · exact (deserialize_validates_dots_only ["a"]).2 (by intro c hc; simp at hc; simp [hc])

/-- C6 counterexample: `from_host_path("a/../b")` succeeds and returns a
path whose middle component is `".."`, violating the component invariant. -/
theorem from_host_path_violates_invariant :
    fromHostPath "a/../b" = Except.ok ⟨["a", "..", "b"]⟩ ∧
    ".." ∈ (Path.mk ["a", "..", "b"]).components ∧
    validComponent ".." = false := by
  refine ⟨rfl, by simp, rfl⟩

theorem validateComponents_ok (cs l : List String)
    (h : validateComponents cs = .ok l) : ∀ c ∈ l, validComponent c = true := by
  induction cs generalizing l with
  | nil =>
    unfold validateComponents at h
    cases h
    simp
  | cons s rest ih =>
    unfold validateComponents at h
    split_ifs at h with h1 h2
    · cases hv : validateComponents rest with
      | error e => rw [hv] at h; simp [Except.map] at h
      | ok l' =>
        rw [hv] at h
        simp only [Except.map] at h
        cases h
        intro c hc
        rcases List.mem_cons.mp hc with hcs | hcl
        · subst hcs
          simp only [Bool.or_eq_true, not_or, Bool.not_eq_true] at h1 h2
          simp [validComponent, h1.1, h1.2, h2.1.1, h2.1.2, h2.2]
        · exact ih l' hv c hcl

theorem splitOnSlash_no_slash (cs : List Char) :
    ∀ g ∈ splitOnSlash cs, '/' ∉ g := by
  induction cs with
  | nil => intro g hg; unfold splitOnSlash at hg; simp at hg; simp [hg]
  | cons c rest ih =>
    intro g hg
    unfold splitOnSlash at hg
    by_cases hc : c = '/'
    · simp [hc] at hg
      rcases hg with hg | hg
      · simp [hg]
      · exact ih g hg
    · simp [hc] at hg
      cases hs : splitOnSlash rest with
      | nil =>
        rw [hs] at hg
        simp at hg
        simp [hg]
        exact fun hEq => hc hEq.symm
      | cons g0 gs =>
        rw [hs] at hg
        simp at hg
        rcases hg with hg | hg
        · subst hg
          intro hm
          rcases List.mem_cons.mp hm with h | h
          · exact hc h.symm
          · exact ih g0 (by simp [hs]) h
        · exact ih g (by simp [hs, hg])

/-- C6 (amended): `from_components` and `empty` enforce the full component
invariant; deserialization guarantees only the absence of `"."` and `".."`;
`from_host_path` fails exactly on the whole inputs `"."` and `".."` and
guarantees only nonempty, `'/'`-free components (a `"."`, `".."` or
backslash component can survive). -/
theorem path_constructors_invariant :
    (∀ (cs : List String) (p : Path), tryFromComponents cs = .ok p →
      ∀ c ∈ p.components, validComponent c = true) ∧
    (∀ c ∈ Path.empty.components, validComponent c = true) ∧
    (∀ (cs : List String) (p : Path), deserializePath cs = .ok p →
      ∀ c ∈ p.components, c ≠ "." ∧ c ≠ "..") ∧
    (∀ (s : String) (p : Path), fromHostPath s = .ok p →
      ∀ c ∈ p.components, c ≠ "" ∧ charIn '/' c = false) ∧
    (∀ s : String, (∃ e, fromHostPath s = .error e) ↔ (s = "." ∨ s = "..")) := by
  refine ⟨?_, ?_, ?_, ?_, ?_⟩
  · intro cs p h
    unfold tryFromComponents at h
    cases hv : validateComponents cs with
    | error e => rw [hv] at h; simp [Except.map] at h
    | ok l =>
      rw [hv] at h
      simp only [Except.map] at h
      cases h
      exact validateComponents_ok cs l hv
  · intro c hc
    simp [Path.empty] at hc
  · intro cs p h
    unfold deserializePath deserializeComponents at h
    split_ifs at h with hA
    · simp [Except.map] at h
    · simp only [Except.map] at h
      cases h
      intro c hc
      constructor
      · intro hEq
        exact hA (List.any_eq_true.mpr ⟨c, hc, by simp [hEq]⟩)
      · intro hEq
        exact hA (List.any_eq_true.mpr ⟨c, hc, by simp [hEq]⟩)
  · intro s p h
    unfold fromHostPath at h
    split_ifs at h with hdot
    simp only [Except.ok.injEq] at h
    subst h
    intro c hc
    simp only [rustComponents, List.mem_filter, List.mem_append] at hc
    obtain ⟨hmem, hne⟩ := hc
    simp only [decide_eq_true_eq] at hne
    rcases hmem with hmem | hmem
    · rcases hmem with hmem | hmem
      · split_ifs at hmem <;> simp_all
      · split_ifs at hmem <;> simp_all [charIn]
    · obtain ⟨g, hg, hgc⟩ := List.mem_map.mp hmem.1
      have hno := splitOnSlash_no_slash s.data g hg
      have hne2 := hmem.2
      subst hgc
      have hpair : ¬(String.mk g) = "" ∧ ¬(String.mk g) = "." := by simpa using hne2
      refine ⟨hpair.1, ?_⟩
      simp only [charIn]
      cases hcl : (String.mk g).data.contains '/'
      · rfl
      · exact absurd (by simpa using hcl) hno
  · intro s
    constructor
    · rintro ⟨e, he⟩
      unfold fromHostPath at he
      split_ifs at he with hdot
      · exact hdot
    · intro hdot
      refine ⟨.invalidArgument "Path cannot contain '.' or '..' components", ?_⟩
      unfold fromHostPath
      simp [hdot]

/-- Witness for `path_constructors_invariant` at concrete inputs. -/
theorem path_constructors_invariant_witness :
    validComponent "a" = true ∧ ("x" ≠ "." ∧ "x" ≠ "..") ∧
    ("y" ≠ "" ∧ charIn '/' "y" = false) ∧
    (∃ e, fromHostPath "." = Except.error e) := by
  refine ⟨?_, ?_, ?_, ?_⟩
  · exact path_constructors_invariant.1 ["a"] ⟨["a"]⟩ (by rfl) "a" (by simp)
  · exact (path_constructors_invariant.2.2.1 ["x"] ⟨["x"]⟩ (by rfl)) "x" (by simp)
  · exact (path_constructors_invariant.2.2.2.1 "y" ⟨["y"]⟩ (by rfl)) "y" (by simp)
  · exact (path_constructors_invariant.2.2.2.2 ".").mpr (Or.inl rfl)

theorem find_eraseP_self_none (p : Path) (l : List (Path × FileStat))
    (h : (l.map Prod.fst).Nodup) :
    (l.eraseP (fun e => e.1 == p)).find? (fun e => e.1 == p) = none := by
  induction l with
  | nil => rfl
  | cons kv rest ih =>
    simp only [List.map_cons, List.nodup_cons] at h
    by_cases hk : kv.1 = p
    · rw [List.eraseP_cons_of_pos]
      · rw [List.find?_eq_none]
        intro x hx hbeq
        have hx1 : x.1 = p := by simpa using hbeq
        exact h.1 (by
          rw [← hk, ← hx1] at *
          exact List.mem_map.mpr ⟨x, hx, rfl⟩)
      · simp [hk]
    · rw [List.eraseP_cons_of_neg]
      · rw [List.find?_cons_of_neg]
        · exact ih h.2
        · simp [hk]
      · simp [hk]

theorem get_after_put (c : FsCache) (k : Path) (v : FileStat)
    (hcap : 1 ≤ c.cap) : ((c.put k v).get k).1 = some v := by
  have hfind : ((c.put k v).entries).find? (fun e => e.1 == k) = some (k, v) := by
    unfold FsCache.put
    split_ifs with hlen
    · have htl : c.entries.eraseP (fun e => e.1 == k) ≠ [] := by
        intro hnil
        rw [hnil] at hlen
        simp at hlen
        omega
      rw [List.dropLast_cons_of_ne_nil htl]
      exact List.find?_cons_of_pos _ (by simp)
    · exact List.find?_cons_of_pos _ (by simp)
  unfold FsCache.get
  rw [hfind]

theorem get_after_pop (c : FsCache) (k : Path) (hwf : wfCache c) :
    ((c.pop k).2.get k).1 = none := by
  unfold FsCache.pop
  cases hf : c.entries.find? (fun e => e.1 == k) with
  | some kv =>
    simp only
    unfold FsCache.get
    rw [find_eraseP_self_none k c.entries hwf]
  | none =>
    simp only
    unfold FsCache.get
    rw [hf]

/-- C4: after a successful `write(p, data, _, s)` on the cached facade the
cache holds `s` under `p`; after a successful `delete_file(p)` the cache
holds nothing under `p`. -/
theorem cache_coherence :
    (∀ (env : WriteEnv) (c : FsCache) (p : Path) (data : List Nat)
        (ow : Bool) (s : FileStat), 1 ≤ c.cap →
      (writeFs env c p data ow s).1 = .ok () →
      ((writeFs env c p data ow s).2.get p).1 = some s) ∧
    (∀ (env : DeleteEnv) (c : FsCache) (p : Path), wfCache c →
      (deleteFileFs env c p).1 = .ok () →
      ((deleteFileFs env c p).2.get p).1 = none) := by
  constructor
  · intro env c p data ow s hcap h
    unfold writeFs at h ⊢
    split_ifs at h ⊢
    simp_all
    exact get_after_put c p s hcap
  · intro env c p hwf h
    unfold deleteFileFs at h ⊢
    split_ifs at h ⊢
    simp_all
    exact get_after_pop c p hwf

/-- Witness for `cache_coherence` at concrete inputs. -/
theorem cache_coherence_witness :
    ((writeFs ⟨false, true, true, true, true⟩ (FsCache.new 1000) ⟨["t"]⟩ [7]
        true ⟨1, "m", false, none⟩).2.get ⟨["t"]⟩).1 =
      some ⟨1, "m", false, none⟩ ∧
    ((deleteFileFs ⟨true, false, true⟩ (FsCache.new 1000) ⟨["t"]⟩).2.get
        ⟨["t"]⟩).1 = none := by
  constructor
  · exact cache_coherence.1 ⟨false, true, true, true, true⟩ (FsCache.new 1000)
      ⟨["t"]⟩ [7] true ⟨1, "m", false, none⟩ (by decide) (by rfl)
  · exact cache_coherence.2 ⟨true, false, true⟩ (FsCache.new 1000) ⟨["t"]⟩
      (by simp [wfCache, FsCache.new]) (by rfl)

/-- C8: `write` leaves the cache exactly as it was whenever any step
fails; the old entry (if any) is neither removed nor replaced before the
whole operation has succeeded. -/
theorem write_cache_atomic (env : WriteEnv) (c : FsCache) (p : Path)
    (data : List Nat) (ow : Bool) (s : FileStat) (e : Error)
    (h : (writeFs env c p data ow s).1 = .error e) :
    (writeFs env c p data ow s).2 = c := by
  unfold writeFs at h ⊢
  split_ifs at h ⊢ <;> simp_all

/-- Witness for `write_cache_atomic`: a failing mtime parse leaves the
cache untouched. -/
theorem write_cache_atomic_witness :
    (writeFs ⟨false, true, true, false, true⟩ (FsCache.new 1000) ⟨["t"]⟩ []
        true ⟨0, "bad", false, none⟩).2 = FsCache.new 1000 := by
  exact write_cache_atomic ⟨false, true, true, false, true⟩ (FsCache.new 1000)
    ⟨["t"]⟩ [] true ⟨0, "bad", false, none⟩
    (.parse "parse system time" "bad") (by rfl)

/-- C9: at the failing input — 130 two-byte characters and a `".txt"`
extension — `sanitize_filename` enters its truncation branch yet returns
the name unchanged at 264 UTF-8 bytes, because the stem is truncated by
character count while the cap is a byte count. -/
theorem sanitize_byte_cap_violation :
    sanitizeFilename (String.mk (List.replicate 130 'é' ++ ".txt".data)) '_' =
      String.mk (List.replicate 130 'é' ++ ".txt".data) ∧
    utf8Len (String.mk (List.replicate 130 'é' ++ ".txt".data)).data = 264 := by
  set_option maxRecDepth 10000 in
  constructor
  · rfl
  · rfl

theorem pushAndSend_out (cfg : WalkerCfg) (st : WalkSt) (x : FileInfo) :
    totalOut (pushAndSend cfg st x) = totalOut st ++ [x] := by
  unfold pushAndSend totalOut
  split_ifs <;> simp

theorem writeChunksM_out (st : WalkSt) :
    totalOut (writeChunksM st) = totalOut st := by
  unfold writeChunksM totalOut
  simp

theorem flushEnd_out (st : WalkSt) : totalOut (flushEnd st) = totalOut st := by
  unfold flushEnd
  split_ifs <;> simp [writeChunksM_out]

theorem procAllow_out (cfg : WalkerCfg) (st : WalkSt) (rel : List String)
    (stat : FileStat) (lvl : FilterLevel) :
    totalOut (procAllow cfg st rel stat lvl) =
      totalOut st ++ emitHead cfg rel stat lvl := by
  unfold procAllow emitHead
  split_ifs <;> simp [pushAndSend_out]

mutual
theorem walkE_out (cfg : WalkerCfg) (r : List String) (d : Nat) (st : WalkSt)
    (e : Entry) :
    totalOut (walkE cfg r d st e) = totalOut st ++ emitE cfg r d e := by
  cases e with
  | mk n stat cs =>
    simp only [walkE, emitE]
    split_ifs with h1 h2 h3
    · simp
    · simp [procAllow_out]
    · rw [flushEnd_out, walkL_out cfg (r ++ [n]) (d + 1) _ cs, procAllow_out,
        List.append_assoc]
    · simp [procAllow_out]

theorem walkL_out (cfg : WalkerCfg) (r : List String) (d : Nat) (st : WalkSt)
    (es : List Entry) :
    totalOut (walkL cfg r d st es) = totalOut st ++ emitL cfg r d es := by
  cases es with
  | nil => simp [walkL, emitL]
  | cons e rest =>
    simp only [walkL, emitL]
    rw [walkL_out cfg r d (walkE cfg r d st e) rest, walkE_out cfg r d st e,
      List.append_assoc]
end

theorem walkTop_out (cfg : WalkerCfg) (r0 : List String) (es : List Entry) :
    totalOut (walkTop cfg r0 es) = emitL cfg r0 0 es := by
  unfold walkTop
  split_ifs with h
  · simp at h
  · rw [flushEnd_out, walkL_out]
    simp [totalOut]

theorem pushAndSend_inv (cfg : WalkerCfg) (st : WalkSt) (x : FileInfo)
    (hcs : 1 ≤ cfg.chunkSize) (h : chunksOk cfg st) :
    chunksOk cfg (pushAndSend cfg st x) := by
  obtain ⟨hsent, hbuf⟩ := h
  unfold pushAndSend
  split_ifs with hlen
  · refine ⟨?_, by simpa using hcs⟩
    intro c hc
    rcases List.mem_append.mp hc with hc | hc
    · exact hsent c hc
    · simp only [List.mem_singleton] at hc
      subst hc
      refine ⟨by simp, ?_⟩
      rw [hlen]
  · refine ⟨hsent, ?_⟩
    simp only [List.length_append, List.length_singleton] at hlen ⊢
    omega

theorem flushEnd_inv (cfg : WalkerCfg) (st : WalkSt) (h : chunksOk cfg st) :
    chunksOk cfg (flushEnd st) := by
  obtain ⟨hsent, hbuf⟩ := h
  unfold flushEnd writeChunksM
  split_ifs with hb
  · exact ⟨hsent, hbuf⟩
  · refine ⟨?_, by simp; omega⟩
    intro c hc
    rcases List.mem_append.mp hc with hc | hc
    · exact hsent c hc
    · simp only [List.mem_singleton] at hc
      subst hc
      exact ⟨hb, Nat.le_of_lt hbuf⟩

theorem procAllow_inv (cfg : WalkerCfg) (st : WalkSt) (rel : List String)
    (stat : FileStat) (lvl : FilterLevel) (hcs : 1 ≤ cfg.chunkSize)
    (h : chunksOk cfg st) : chunksOk cfg (procAllow cfg st rel stat lvl) := by
  unfold procAllow
  split_ifs <;> first
    | exact h
    | exact pushAndSend_inv cfg st _ hcs h

mutual
theorem walkE_inv (cfg : WalkerCfg) (r : List String) (d : Nat) (st : WalkSt)
    (e : Entry) (hcs : 1 ≤ cfg.chunkSize) (h : chunksOk cfg st) :
    chunksOk cfg (walkE cfg r d st e) := by
  cases e with
  | mk n stat cs =>
    simp only [walkE]
    split_ifs with h1 h2 h3
    · exact h
    · exact procAllow_inv cfg st _ _ _ hcs h
    · exact flushEnd_inv cfg _
        (walkL_inv cfg (r ++ [n]) (d + 1) _ cs hcs
          (procAllow_inv cfg st _ _ _ hcs h))
    · exact procAllow_inv cfg st _ _ _ hcs h

theorem walkL_inv (cfg : WalkerCfg) (r : List String) (d : Nat) (st : WalkSt)
    (es : List Entry) (hcs : 1 ≤ cfg.chunkSize) (h : chunksOk cfg st) :
    chunksOk cfg (walkL cfg r d st es) := by
  cases es with
  | nil => exact h
  | cons e rest =>
    simp only [walkL]
    exact walkL_inv cfg r d _ rest hcs (walkE_inv cfg r d st e hcs h)
end

/-- C1 (amended): every chunk a walker sends is non-empty and at most
`chunk_size` long; full chunks are sent as the buffer fills, but the
partial chunk is flushed at the end of every `walk_recursive` call — after
each directory's entry loop — not only on return to the top level. -/
theorem chunks_bounded (cfg : WalkerCfg) (r0 : List String) (es : List Entry)
    (hcs : 1 ≤ cfg.chunkSize) :
    ∀ c ∈ (walkTop cfg r0 es).sent, c ≠ [] ∧ c.length ≤ cfg.chunkSize := by
  unfold walkTop
  split_ifs with hg
  · intro c hc
    simp at hc
  · exact (flushEnd_inv cfg _
      (walkL_inv cfg r0 0 _ es hcs ⟨by simp, by simpa using hcs⟩)).1

/-- C1 counterexample: walking `cexTree` with `chunk_size = 3` and no
filtering sends the chunks `[d, d/b]` and `[a]` — the first chunk is not
the last yet has length 2 ≠ 3, because the partial chunk is flushed when
the walk returns from subdirectory `d`, not only at the top level. -/
theorem chunk_short_before_last :
    ((walkTop ⟨3, none, FilterSet.new, []⟩ [] cexTree).sent).map List.length =
      [2, 1] := by
  rfl

/-- Witness for `chunks_bounded`: the first chunk of the concrete walk. -/
theorem chunks_bounded_witness :
    ([⟨⟨["d"]⟩, cexStatD⟩, ⟨⟨["d", "b"]⟩, cexStatF⟩] : List FileInfo) ≠ [] ∧
    ([⟨⟨["d"]⟩, cexStatD⟩, ⟨⟨["d", "b"]⟩, cexStatF⟩] : List FileInfo).length ≤ 3 :=
  chunks_bounded ⟨3, none, FilterSet.new, []⟩ [] cexTree (by decide) _ (by decide)

theorem emitHead_filter (csz : Nat) (md : Option Nat) (f : FilterSet)
    (lk : List (List String × FileStat)) (rel : List String) (stat : FileStat)
    (lvl : FilterLevel) :
    emitHead ⟨csz, md, f, lk⟩ rel stat lvl =
      (emitHead ⟨csz, md, f, []⟩ rel stat lvl).filter
        (fun i => !(decide (mapFind lk i.path.components = some i.stats))) := by
  unfold emitHead
  by_cases h1 : lvl = FilterLevel.allow
  · simp only [h1, if_pos]
    have h0 : mapFind ([] : List (List String × FileStat)) rel = none := rfl
    by_cases h2 : mapFind lk rel = some stat
    · simp [h0, h2]
    · simp [h0, h2]
  · simp [h1]

mutual
theorem emitE_filter (csz : Nat) (md : Option Nat) (f : FilterSet)
    (lk : List (List String × FileStat)) (r : List String) (d : Nat) (e : Entry) :
    emitE ⟨csz, md, f, lk⟩ r d e =
      (emitE ⟨csz, md, f, []⟩ r d e).filter
        (fun i => !(decide (mapFind lk i.path.components = some i.stats))) := by
  cases e with
  | mk n stat cs =>
    simp only [emitE]
    split_ifs with h1 h2 h3
    · rfl
    · exact emitHead_filter csz md f lk (r ++ [n]) stat _
    · rw [List.filter_append, emitHead_filter csz md f lk (r ++ [n]) stat _,
        emitL_filter csz md f lk (r ++ [n]) (d + 1) cs]
    · exact emitHead_filter csz md f lk (r ++ [n]) stat _

theorem emitL_filter (csz : Nat) (md : Option Nat) (f : FilterSet)
    (lk : List (List String × FileStat)) (r : List String) (d : Nat)
    (es : List Entry) :
    emitL ⟨csz, md, f, lk⟩ r d es =
      (emitL ⟨csz, md, f, []⟩ r d es).filter
        (fun i => !(decide (mapFind lk i.path.components = some i.stats))) := by
  cases es with
  | nil => rfl
  | cons e rest =>
    simp only [emitL]
    rw [List.filter_append, emitE_filter csz md f lk r d e,
      emitL_filter csz md f lk r d rest]
end

theorem mapFind_not_mem (m : List (List String × FileStat)) (k : List String)
    (h : k ∉ m.map Prod.fst) : mapFind m k = none := by
  induction m with
  | nil => rfl
  | cons kv rest ih =>
    obtain ⟨k0, v0⟩ := kv
    simp only [List.map_cons, List.mem_cons, not_or] at h
    simp only [mapFind]
    rw [ih h.2]
    have : (k0 == k) = false := by
      simp only [beq_eq_false_iff_ne, ne_eq]
      exact fun hEq => h.1 (by simp [hEq])
    simp [this]

theorem buildLookup_keys (R : List FileInfo) :
    (buildLookup R).map Prod.fst = R.map (fun i => i.path.components) := by
  simp [buildLookup, List.map_map]

theorem mapFind_build_mem (i : FileInfo) (R : List FileInfo)
    (h : (R.map (fun j => j.path.components)).Nodup) (hi : i ∈ R) :
    mapFind (buildLookup R) i.path.components = some i.stats := by
  induction R with
  | nil => cases hi
  | cons j rest ih =>
    simp only [List.map_cons, List.nodup_cons] at h
    rcases List.mem_cons.mp hi with rfl | hi'
    · have hn : i.path.components ∉ (buildLookup rest).map Prod.fst := by
        rw [buildLookup_keys]
        exact h.1
      simp only [buildLookup, List.map_cons, mapFind]
      rw [show (rest.map fun j => (j.path.components, j.stats)) = buildLookup rest
        from rfl, mapFind_not_mem _ _ hn]
      simp
    · have hr := ih h.2 hi'
      simp only [buildLookup, List.map_cons, mapFind]
      rw [show (rest.map fun j => (j.path.components, j.stats)) = buildLookup rest
        from rfl, hr]

mutual
theorem mem_pathsE (r : List String) (e : Entry) (p : List String)
    (hp : p ∈ pathsE r e) : ∃ q, p = r ++ e.name :: q := by
  cases e with
  | mk n st cs =>
    simp only [pathsE, List.mem_cons] at hp
    rcases hp with rfl | hp
    · exact ⟨[], by simp [Entry.name]⟩
    · obtain ⟨e', _, q, hq⟩ := mem_pathsL (r ++ [n]) cs p hp
      refine ⟨e'.name :: q, ?_⟩
      rw [hq]
      simp [Entry.name]

theorem mem_pathsL (r : List String) (es : List Entry) (p : List String)
    (hp : p ∈ pathsL r es) : ∃ e ∈ es, ∃ q, p = r ++ e.name :: q := by
  cases es with
  | nil => simp [pathsL] at hp
  | cons e rest =>
    simp only [pathsL, List.mem_append] at hp
    rcases hp with hp | hp
    · obtain ⟨q, hq⟩ := mem_pathsE r e p hp
      exact ⟨e, by simp, q, hq⟩
    · obtain ⟨e', he', q, hq⟩ := mem_pathsL r rest p hp
      exact ⟨e', by simp [he'], q, hq⟩
end

mutual
theorem nodup_pathsE (r : List String) (e : Entry) (h : wfE e = true) :
    (pathsE r e).Nodup := by
  cases e with
  | mk n st cs =>
    simp only [pathsE]
    refine List.nodup_cons.mpr ⟨?_, nodup_pathsL (r ++ [n]) cs (by simpa [wfE] using h)⟩
    intro hmem
    obtain ⟨e', _, q, hq⟩ := mem_pathsL (r ++ [n]) cs _ hmem
    have hlen := congrArg List.length hq
    simp at hlen

theorem nodup_pathsL (r : List String) (es : List Entry) (h : wfL es = true) :
    (pathsL r es).Nodup := by
  cases es with
  | nil => simp [pathsL]
  | cons e rest =>
    simp only [wfL, Bool.and_eq_true, Bool.not_eq_true'] at h
    obtain ⟨⟨h1, h2⟩, h3⟩ := h
    simp only [pathsL]
    refine List.Nodup.append (nodup_pathsE r e h1) (nodup_pathsL r rest h2) ?_
    intro p hp1 hp2
    obtain ⟨q, hq⟩ := mem_pathsE r e p hp1
    obtain ⟨e', he', q', hq'⟩ := mem_pathsL r rest p hp2
    have hEq : r ++ e.name :: q = r ++ e'.name :: q' := by rw [← hq, ← hq']
    have hname : e.name = e'.name := (List.cons.injEq _ _ _ _).mp
      (List.append_cancel_left hEq) |>.1
    have : (rest.map Entry.name).contains e.name = true :=
      List.elem_eq_true_of_mem (List.mem_map.mpr ⟨e', he', hname.symm⟩)
    rw [this] at h3
    cases h3
end

mutual
theorem emit_keys_sub_pathsE (cfg : WalkerCfg) (r : List String) (d : Nat)
    (e : Entry) :
    ((emitE cfg r d e).map (fun i => i.path.components)).Sublist (pathsE r e) := by
  cases e with
  | mk n stat cs =>
    simp only [emitE, pathsE]
    split_ifs with h1 h2 h3
    · simp
    · unfold emitHead
      split_ifs <;> simp
    · have ihc := emit_keys_sub_pathsL cfg (r ++ [n]) (d + 1) cs
      rw [List.map_append]
      unfold emitHead
      split_ifs <;> simp only [List.map_nil, List.map_cons, List.nil_append,
        List.cons_append]
      · exact ihc.cons _
      · exact ihc.cons₂ _
      · exact ihc.cons _
    · unfold emitHead
      split_ifs <;> simp

theorem emit_keys_sub_pathsL (cfg : WalkerCfg) (r : List String) (d : Nat)
    (es : List Entry) :
    ((emitL cfg r d es).map (fun i => i.path.components)).Sublist (pathsL r es) := by
  cases es with
  | nil => simp [emitL, pathsL]
  | cons e rest =>
    simp only [emitL, pathsL, List.map_append]
    exact (emit_keys_sub_pathsE cfg r d e).append (emit_keys_sub_pathsL cfg r d rest)
end

theorem emit_nodup_keys (cfg : WalkerCfg) (r : List String) (d : Nat)
    (es : List Entry) (h : wfL es = true) :
    ((emitL cfg r d es).map (fun i => i.path.components)).Nodup :=
  (nodup_pathsL r es h).sublist (emit_keys_sub_pathsL cfg r d es)

theorem procAllow_emit_nil (cfg : WalkerCfg) (st : WalkSt) (rel : List String)
    (stat : FileStat) (lvl : FilterLevel)
    (he : emitHead cfg rel stat lvl = []) :
    procAllow cfg st rel stat lvl = st := by
  unfold emitHead at he
  unfold procAllow
  split_ifs at he ⊢ <;> simp_all

mutual
theorem walkE_emit_nil (cfg : WalkerCfg) (r : List String) (d : Nat)
    (st : WalkSt) (e : Entry) (hb : st.buffer = [])
    (he : emitE cfg r d e = []) : walkE cfg r d st e = st := by
  cases e with
  | mk n stat cs =>
    simp only [emitE] at he
    simp only [walkE]
    split_ifs at he ⊢ with h1 h2 h3
    · rfl
    · exact procAllow_emit_nil cfg st _ stat _ he
    · rcases List.append_eq_nil.mp he with ⟨he1, he2⟩
      rw [procAllow_emit_nil cfg st _ stat _ he1,
        walkL_emit_nil cfg (r ++ [n]) (d + 1) st cs hb he2]
      unfold flushEnd
      simp [hb]
    · exact procAllow_emit_nil cfg st _ stat _ he

theorem walkL_emit_nil (cfg : WalkerCfg) (r : List String) (d : Nat)
    (st : WalkSt) (es : List Entry) (hb : st.buffer = [])
    (he : emitL cfg r d es = []) : walkL cfg r d st es = st := by
  cases es with
  | nil => rfl
  | cons e rest =>
    simp only [emitL] at he
    rcases List.append_eq_nil.mp he with ⟨he1, he2⟩
    simp only [walkL]
    rw [walkE_emit_nil cfg r d st e hb he1, walkL_emit_nil cfg r d st rest hb he2]
end

theorem walkTop_emit_nil (cfg : WalkerCfg) (r0 : List String)
    (tree : List Entry) (he : emitL cfg r0 0 tree = []) :
    (walkTop cfg r0 tree).sent = [] := by
  unfold walkTop
  split_ifs with hg
  · rfl
  · rw [walkL_emit_nil cfg r0 0 ⟨[], []⟩ tree rfl he]
    rfl

/-- C3: over an unchanged well-formed tree, `exchange_deltas` called with
`deltas` equal to the previous exchange's full output sends nothing on the
channel; and, against any baseline, the walker emits exactly the
Allow-decided entries whose host-relative path is not bound in the
baseline to a field-wise equal record. -/
theorem exchange_deltas_idempotent (fset : FilterSet) (csz : Nat)
    (r0 : List String) (tree : List Entry) (hwf : wfL tree = true) :
    (exchangeDeltas fset csz r0 tree
      (totalOut (exchangeDeltas fset csz r0 tree []))).sent = [] ∧
    ∀ lk : List (List String × FileStat),
      emitL ⟨csz, none, fset, lk⟩ r0 0 tree =
        (emitL ⟨csz, none, fset, []⟩ r0 0 tree).filter
          (fun i => !(decide (mapFind lk i.path.components = some i.stats))) := by
  constructor
  · have hR : totalOut (exchangeDeltas fset csz r0 tree []) =
        emitL ⟨csz, none, fset, []⟩ r0 0 tree := by
      unfold exchangeDeltas
      rw [walkTop_out]
      rfl
    have hemit : emitL ⟨csz, none, fset,
        buildLookup (totalOut (exchangeDeltas fset csz r0 tree []))⟩ r0 0 tree = [] := by
      rw [emitL_filter, List.filter_eq_nil_iff]
      intro i hi
      rw [hR]
      have hm := mapFind_build_mem i _ (emit_nodup_keys
        ⟨csz, none, fset, []⟩ r0 0 tree hwf) hi
      simp [hm]
    exact walkTop_emit_nil _ r0 tree hemit
  · intro lk
    exact emitL_filter csz none fset lk r0 0 tree

/-- Witness for `exchange_deltas_idempotent` on the concrete tree. -/
theorem exchange_deltas_idempotent_witness :
    (exchangeDeltas FilterSet.new 3 [] cexTree
      (totalOut (exchangeDeltas FilterSet.new 3 [] cexTree []))).sent = [] :=
  (exchange_deltas_idempotent FilterSet.new 3 [] cexTree (by rfl)).1

end Pfs

